import Mathlib

/-!
Verification of the JobSummarizer evaluation harness (`accuracy.py`).

The development shallowly embeds the JSON-consolidation and fuzzy-matching
pipeline of `accuracy.py`: the value normalizer `normalize_value`, the field
consolidator `job_data`, the JSON loader `load_json_output`, and the per-field
fuzzy evaluation `_evaluate_field` of `TestJsonConsolidation` (including the
consolidation call made by `setUpClass`).  Strings are modelled as `List Char`
(Unicode scalar values, exactly as Python strings).  JSON documents are
modelled by the inductive type `JValue`; JSON numbers are modelled as integers
(no claim exercises floats).  External collaborators (the fuzzy-ratio function
`fuzz.token_set_ratio` and the sentence-embedding model) are parameters of the
corresponding definitions, as in the spec.
-/

/-! ## Character classes of the Python `re` module and `str` methods

Character predicates are written on code points (`Char.toNat`).  Python's
`\s` is modelled on its ASCII members (space, tab, newline, carriage return,
vertical tab, form feed), which are the whitespace characters the pipeline can
produce or that appear in the claims.  Python's `\w` (Unicode word character)
is modelled exactly on ASCII (letters, digits, underscore) and on the
non-ASCII characters that occur in the source and the claims: of those,
U+00E2 LATIN SMALL A WITH CIRCUMFLEX and U+00B9 SUPERSCRIPT ONE are Unicode
word characters, while U+201A SINGLE LOW-9 QUOTATION MARK, U+20B9 INDIAN RUPEE
SIGN and the dollar sign are not. -/

def pyIsSpace (c : Char) : Bool :=
  c.toNat = 32 || c.toNat = 9 || c.toNat = 10 || c.toNat = 13 ||
  c.toNat = 11 || c.toNat = 12

def pyIsWord (c : Char) : Bool :=
  (97 ≤ c.toNat && c.toNat ≤ 122) || (65 ≤ c.toNat && c.toNat ≤ 90) ||
  (48 ≤ c.toNat && c.toNat ≤ 57) || c.toNat = 95 || c.toNat = 226 ||
  c.toNat = 185

/-- Python `str.lower`: `Char.toLower` lowers exactly the ASCII uppercase
letters; no non-ASCII cased character occurs in the source or the claims. -/
def pyLower (s : List Char) : List Char := s.map Char.toLower

/-- Python `str.strip`: drop leading and trailing whitespace. -/
def pyStrip (s : List Char) : List Char :=
  (s.dropWhile pyIsSpace).rdropWhile pyIsSpace

/-! ## The scalar pipeline of `normalize_value` (accuracy.py lines 65-82) -/

/-- `re.sub(r'[,]', '', text)`: remove commas. -/
def sub_comma (s : List Char) : List Char := s.filter (fun c => !(c.toNat = 44))

/-- `re.sub(r'[-|.:]', ' ', text)`: hyphen, pipe, period, colon to space. -/
def sub_dash_space (s : List Char) : List Char :=
  s.map (fun c =>
    if c.toNat = 45 || c.toNat = 124 || c.toNat = 46 || c.toNat = 58 then ' '
    else c)

/-- `re.sub(r'[^\w\s]', ' ', text)`: every remaining non-word non-space
character becomes a space. -/
def sub_nonword_space (s : List Char) : List Char :=
  s.map (fun c => if pyIsWord c || pyIsSpace c then c else ' ')

/-- `re.sub(r'[â‚¹]', 'rs', text)`: the source file contains the three
characters U+00E2, U+201A, U+00B9 (a mojibake of the UTF-8 bytes of U+20B9
INDIAN RUPEE SIGN decoded as cp1252), so the character class matches exactly
those three characters and not the rupee sign. -/
def sub_mojibake_rs : List Char → List Char
  | [] => []
  | c :: rest =>
    if c.toNat = 226 || c.toNat = 8218 || c.toNat = 185 then
      'r' :: 's' :: sub_mojibake_rs rest
    else c :: sub_mojibake_rs rest

/-- `re.sub(r'[$]', 'usd', text)`. -/
def sub_dollar_usd : List Char → List Char
  | [] => []
  | c :: rest =>
    if c.toNat = 36 then 'u' :: 's' :: 'd' :: sub_dollar_usd rest
    else c :: sub_dollar_usd rest

def seniorL : List Char := ['s', 'e', 'n', 'i', 'o', 'r']

def juniorL : List Char := ['j', 'u', 'n', 'i', 'o', 'r']

/-- `text.replace("senior", "sr")`: left-to-right non-overlapping replacement
of every occurrence, scanning resumes after the replacement. -/
def replace_senior : List Char → List Char
  | 's' :: 'e' :: 'n' :: 'i' :: 'o' :: 'r' :: rest => 's' :: 'r' :: replace_senior rest
  | c :: rest => c :: replace_senior rest
  | [] => []

/-- `text.replace("junior", "jr")`. -/
def replace_junior : List Char → List Char
  | 'j' :: 'u' :: 'n' :: 'i' :: 'o' :: 'r' :: rest => 'j' :: 'r' :: replace_junior rest
  | c :: rest => c :: replace_junior rest
  | [] => []

/-- `re.sub(r'\s+', ' ', text)`: each maximal whitespace run becomes a single
space. -/
def squeeze_ws : List Char → List Char
  | [] => []
  | [c] => [if pyIsSpace c then ' ' else c]
  | c :: d :: rest =>
    if pyIsSpace c && pyIsSpace d then squeeze_ws (d :: rest)
    else (if pyIsSpace c then ' ' else c) :: squeeze_ws (d :: rest)

/-- The scalar branch of `normalize_value` (lines 65-82): lower-case and
strip, then the six substitutions in source order, then whitespace
normalization. -/
def normScalar (s : List Char) : List Char :=
  pyStrip (squeeze_ws (replace_junior (replace_senior (sub_dollar_usd
    (sub_mojibake_rs (sub_nonword_space (sub_dash_space (sub_comma
      (pyStrip (pyLower s))))))))))

/-! ## JSON values -/

/-- A decoded JSON document: scalars, ordered sequences, maps.  Numbers are
modelled as integers. -/
inductive JValue where
  | null
  | bool (b : Bool)
  | num (n : Int)
  | str (s : List Char)
  | arr (xs : List JValue)
  | obj (fs : List (String × JValue))

/-- Decimal text of a natural number. -/
def natToChars (n : Nat) : List Char := Nat.toDigits 10 n

/-- Python `str`/`json.dumps` rendering of an integer. -/
def intToChars : Int → List Char
  | .ofNat n => natToChars n
  | .negSucc n => '-' :: natToChars (n + 1)

def hexDigit (n : Nat) : Char :=
  if n < 10 then Char.ofNat (48 + n) else Char.ofNat (87 + n)

/-- A `\uXXXX` escape for a code unit. -/
def uEscape (n : Nat) : List Char :=
  ['\\', 'u', hexDigit (n / 4096 % 16), hexDigit (n / 256 % 16),
   hexDigit (n / 16 % 16), hexDigit (n % 16)]

/-- `json.dumps` escaping of one character (default `ensure_ascii=True`):
short escapes for quote, backslash and the common controls, `\uXXXX` for the
other controls and for every non-ASCII character (surrogate pairs beyond the
basic multilingual plane). -/
def jsonEscapeChar (c : Char) : List Char :=
  if c.toNat = 34 then ['\\', '"']
  else if c.toNat = 92 then ['\\', '\\']
  else if c.toNat = 10 then ['\\', 'n']
  else if c.toNat = 9 then ['\\', 't']
  else if c.toNat = 13 then ['\\', 'r']
  else if c.toNat = 8 then ['\\', 'b']
  else if c.toNat = 12 then ['\\', 'f']
  else if c.toNat < 32 then uEscape c.toNat
  else if c.toNat < 127 then [c]
  else if c.toNat ≤ 65535 then uEscape c.toNat
  else uEscape (55296 + (c.toNat - 65536) / 1024) ++
       uEscape (56320 + (c.toNat - 65536) % 1024)

def jsonEscape : List Char → List Char
  | [] => []
  | c :: rest => jsonEscapeChar c ++ jsonEscape rest

/-- Lexicographic code-point order on character lists. -/
def charListLe : List Char → List Char → Bool
  | [], _ => true
  | _ :: _, [] => false
  | a :: as, b :: bs =>
    a.toNat < b.toNat || (a.toNat = b.toNat && charListLe as bs)

/-- Code-point order on strings, as `sorted` uses on Python `str` keys. -/
def keyLe (a b : String) : Bool := charListLe a.toList b.toList

def insertKeyed {α : Type} (p : String × α) :
    List (String × α) → List (String × α)
  | [] => [p]
  | q :: rest => if keyLe p.1 q.1 then p :: q :: rest else q :: insertKeyed p rest

/-- `sort_keys=True`: stable sort of the entries by key. -/
def sortByKey {α : Type} : List (String × α) → List (String × α)
  | [] => []
  | p :: rest => insertKeyed p (sortByKey rest)

/-- Render an already-sorted object body: `"key": value` entries joined by
`', '`. -/
def assembleObj : List (String × List Char) → List Char
  | [] => []
  | [(k, d)] => ('"' :: (jsonEscape k.toList ++ ['"'])) ++ (':' :: ' ' :: d)
  | (k, d) :: q :: rest =>
    ('"' :: (jsonEscape k.toList ++ ['"'])) ++ (':' :: ' ' :: d) ++
    (',' :: ' ' :: assembleObj (q :: rest))

mutual
/-- `json.dumps(value, sort_keys=True)` with the default separators
`', '` and `': '`.  An object's entries are rendered and then ordered by
key (Python sorts the entries by key first and then renders; the two agree
because sorting only reorders whole entries). -/
def jsonDumps : JValue → List Char
  | .null => "null".toList
  | .bool true => "true".toList
  | .bool false => "false".toList
  | .num n => intToChars n
  | .str s => '"' :: (jsonEscape s ++ ['"'])
  | .arr xs => '[' :: (jsonDumpsArr xs ++ [']'])
  | .obj fs => '\x7b' :: (assembleObj (sortByKey (jsonDumpsPairs fs)) ++ ['\x7d'])
def jsonDumpsArr : List JValue → List Char
  | [] => []
  | [x] => jsonDumps x
  | x :: y :: rest => jsonDumps x ++ (',' :: ' ' :: jsonDumpsArr (y :: rest))
def jsonDumpsPairs : List (String × JValue) → List (String × List Char)
  | [] => []
  | (k, v) :: rest => (k, jsonDumps v) :: jsonDumpsPairs rest
end

/-! ## `normalize_value` (accuracy.py lines 48-82) -/

/-- The list-comprehension filter of line 57:
`item is not None and str(item).strip() != ""`.  `str(item)` of a
non-null, non-string value (number, boolean, nested list or map) is never
blank (`"0"`, `"False"`, `"[]"`, `"{}"`, ... all contain non-whitespace), so
only null and blank strings are dropped. -/
def rawKeep : JValue → Bool
  | .null => false
  | .str s => !(pyStrip s).isEmpty
  | _ => true

mutual
/-- `normalize_value` (lines 48-82): null to empty; a list flattens its kept
items recursively, joined by single spaces; a map is serialized by
`json.dumps(_, sort_keys=True)` and then, like every other scalar, sent
through the scalar pipeline. -/
def normalize_value : JValue → List Char
  | .null => []
  | .arr xs => List.intercalate [' '] (normalizeList xs)
  | .str s => normScalar s
  | .bool b => normScalar (if b then ['T', 'r', 'u', 'e'] else ['F', 'a', 'l', 's', 'e'])
  | .num n => normScalar (intToChars n)
  | .obj fs => normScalar (jsonDumps (.obj fs))
def normalizeList : List JValue → List (List Char)
  | [] => []
  | x :: xs =>
    if rawKeep x then normalize_value x :: normalizeList xs else normalizeList xs
end

/-! ## `job_data` (accuracy.py lines 84-104) -/

/-- One record: a decoded JSON object, keys to values. -/
abbrev Record := List (String × JValue)

/-- Python `dict` lookup (`.get`): the value of the first entry with the key. -/
def lookupA {α : Type} : List (String × α) → String → Option α
  | [], _ => none
  | (k, v) :: rest, f => if k = f then some v else lookupA rest f

/-- `normalize_value(job.get(field))`: an absent key yields `None`, which
normalizes to the empty string. -/
def fieldContrib (job : Record) (f : String) : List Char :=
  normalize_value ((lookupA job f).getD .null)

/-- The values appended to `aggregated_field_values[f]` while one record is
processed: one append per occurrence of `f` in `fields` whose normalized
value is non-empty (line 96's truthiness test). -/
def jobFieldAppends (job : Record) (fields : List String) (f : String) :
    List (List Char) :=
  match fields with
  | [] => []
  | g :: rest =>
    (if g = f ∧ fieldContrib job g ≠ [] then [fieldContrib job g] else []) ++
    jobFieldAppends job rest f

/-- All values accumulated under key `f` over the whole record list, in
append order (records outer, fields inner). -/
def collectField (jobs : List Record) (fields : List String) (f : String) :
    List (List Char) :=
  match jobs with
  | [] => []
  | job :: rest => jobFieldAppends job fields f ++ collectField rest fields f

/-- Key order of `{field: [] for field in fields}`: first occurrences, in
order. -/
def dedupKeys (fields : List String) : List String :=
  fields.foldl (fun acc f => if f ∈ acc then acc else acc ++ [f]) []

/-- `job_data` (lines 84-104): consolidate the named fields of every record
into one space-joined normalized string per field, omitting fields that
collected no values. -/
def job_data (job_list : List Record) (fields : List String) :
    List (String × List Char) :=
  (dedupKeys fields).filterMap (fun f =>
    if collectField job_list fields f = [] then none
    else some (f, List.intercalate [' '] (collectField job_list fields f)))

/-- `FIELDS_TO_CONSOLIDATE` (lines 10-23). -/
def FIELDS_TO_CONSOLIDATE : List String :=
  ["Company name", "Job title", "Number of openings", "Reservation details",
   "Location", "Qualifications required", "Skills required", "Age limit",
   "Salary or compensation details", "Application deadline",
   "Mode of application", "Contact details"]

/-! ## `load_json_output` (lines 25-44) and the `setUpClass` path (154-155) -/

/-- What `open` plus `json.load` produce for an input path: a missing file, a
decode failure, any other I/O fault, or a decoded document. -/
inductive ReadResult where
  | notFound
  | decodeError
  | otherError
  | parsed (v : JValue)

/-- `load_json_output`: the parsed list on success, otherwise `None` together
with a printed diagnostic (the second component models the `print` calls). -/
def load_json_output : ReadResult → Option (List JValue) × Option String
  | .notFound => (none, some "Error: JSON file not found")
  | .decodeError => (none, some "Error: Could not decode JSON")
  | .otherError => (none, some "An unexpected error occurred while loading")
  | .parsed (.arr xs) => (some xs, none)
  | .parsed _ => (none, some "Error: JSON is not a list of objects")

def asRecord : JValue → Option Record
  | .obj fs => some fs
  | _ => none

def allRecords : List JValue → Option (List Record)
  | [] => some []
  | x :: xs => do pure ((← asRecord x) :: (← allRecords xs))

/-- The consolidation call of `setUpClass` (lines 154-155):
`job_data(load_json_output(path), FIELDS_TO_CONSOLIDATE)` applied directly to
the loader's result.  Iterating `None` raises `TypeError`; calling `.get` on
a non-dict element raises `AttributeError`; both are modelled as `.error`. -/
def setUpClass_consolidation (r : ReadResult) :
    Except String (List (String × List Char)) :=
  match (load_json_output r).fst with
  | none => .error "TypeError: NoneType object is not iterable"
  | some js =>
    match allRecords js with
    | none => .error "AttributeError: object has no attribute get"
    | some recs => .ok (job_data recs FIELDS_TO_CONSOLIDATE)

/-! ## `_evaluate_field` (lines 168-192) -/

/-- `unittest.assertGreaterEqual(a, b)`: succeeds when `a >= b`, otherwise
raises `AssertionError` with the given message. -/
def assertGreaterEqual (a b : Nat) (msg : String) : Except String Unit :=
  if b ≤ a then .ok () else .error msg

def FUZZY_MATCH_THRESHOLD : Nat := 50

/-- `_evaluate_field` (lines 168-192).  `ratio` is the
`fuzz.token_set_ratio` collaborator.  The first component is the assertion
outcome raised to the caller; the second is the warning printed on the
skip path (`expected_pattern` absent or empty, line 192), `none`
otherwise. -/
def evaluate_field (ratio : List Char → List Char → Nat)
    (consolidated expected : List (String × List Char)) (field_name : String) :
    Except String Unit × Option String :=
  let consolidated_value := (lookupA consolidated field_name).getD []
  match lookupA expected field_name with
  | none => (.ok (), some ("Warning: no expected pattern defined for " ++ field_name))
  | some expected_pattern =>
    if expected_pattern = [] then
      (.ok (), some ("Warning: no expected pattern defined for " ++ field_name))
    else
      (assertGreaterEqual (ratio consolidated_value expected_pattern)
        FUZZY_MATCH_THRESHOLD ("Failed " ++ field_name), none)

/-! ## The embedding similarity scorer -/

/-- The failure raised on an empty first list. -/
inductive EmptyInputError where
  | emptyListA
deriving DecidableEq

/-- Modelled from the spec: the script defining
`compute_max_pairwise_similarity` (spec 4.2, 8) is not under `src/`.  Each
entry of `list_a` is scored by its best cosine match in `list_b` (the
`sim` collaborator composes the embedding with cosine similarity), the row
maxima are averaged and scaled to a percentage; an empty `list_a` must fail
with an explicit `EmptyInputError` rather than return a number. -/
def compute_max_pairwise_similarity (sim : String → String → ℚ)
    (list_a list_b : List String) : Except EmptyInputError ℚ :=
  match list_a with
  | [] => .error .emptyListA
  | a :: rest =>
    .ok (100 * (((a :: rest).map
      (fun x => (list_b.map (sim x)).foldr max 0)).sum / (a :: rest).length))

/-! ## Helper lemmas -/

theorem lookupA_append {α : Type} (l₁ l₂ : List (String × α)) (k : String) :
    lookupA (l₁ ++ l₂) k =
      (match lookupA l₁ k with
       | some v => some v
       | none => lookupA l₂ k) := by
  induction l₁ with
  | nil => simp [lookupA]
  | cons p rest ih =>
    obtain ⟨k', v⟩ := p
    by_cases h : k' = k
    · simp [lookupA, h]
    · simp [lookupA, h, ih]

theorem normalizeList_cons_keep (x : JValue) (xs : List JValue)
    (h : rawKeep x = true) :
    normalizeList (x :: xs) = normalize_value x :: normalizeList xs := by
  simp [normalizeList, h]

theorem normalizeList_cons_drop (x : JValue) (xs : List JValue)
    (h : rawKeep x = false) :
    normalizeList (x :: xs) = normalizeList xs := by
  simp [normalizeList, h]

/-! ## Claim C1 -/

/-- Claim C1: a load failure (missing file, malformed JSON, non-list
top-level) is reported as `None` plus a diagnostic — that part holds — but
the consolidation path of `setUpClass`, `job_data` applied to the loader's
result, then raises `TypeError` on the `None` result instead of not raising:
the second half of the claim fails on the code.  This theorem evaluates the
code at the failing inputs. -/
theorem C1_failed_load_then_consolidation_raises :
    (load_json_output .notFound).fst = none ∧
    (load_json_output .notFound).snd.isSome = true ∧
    (load_json_output .decodeError).fst = none ∧
    (load_json_output .decodeError).snd.isSome = true ∧
    (load_json_output (.parsed (.obj []))).fst = none ∧
    (load_json_output (.parsed (.obj []))).snd.isSome = true ∧
    setUpClass_consolidation .notFound =
      .error "TypeError: NoneType object is not iterable" ∧
    setUpClass_consolidation .decodeError =
      .error "TypeError: NoneType object is not iterable" ∧
    setUpClass_consolidation (.parsed (.obj [])) =
      .error "TypeError: NoneType object is not iterable" :=
  ⟨rfl, rfl, rfl, rfl, rfl, rfl, rfl, rfl, rfl⟩

/-! ## Claim C2 -/

/-- Claim C2: the claim states `normalize_value "₹500"` contains `rs500` or
`rs 500` with no rupee sign left.  On the code the rupee sign and the dollar
sign are erased to spaces by the `[^\w\s]` substitution before the currency
substitutions run (and the rupee pattern is mojibake matching â, U+201A, ¹
instead of ₹), so the result is plain `500` — no `rs` appears; likewise
`$100` gives `100` without `usd`.  The substitutions fire only on the
mojibake characters themselves. -/
theorem C2_currency_substitution_never_fires :
    normalize_value (.str "₹500".toList) = ['5', '0', '0'] ∧
    normalize_value (.str "$100".toList) = ['1', '0', '0'] ∧
    normalize_value (.str ['â']) = ['r', 's'] := by
  refine ⟨by decide, by decide, by decide⟩

/-! ## Claim C4 -/

/-- Claim C4 counterexample: the list filter keeps any element whose raw
string form is non-blank, even when its normalization is empty, so the
element `"!"` contributes an empty component and the join contains a doubled
space — refuting "the result never contains doubled spaces". -/
theorem C4_counterexample_doubled_space :
    normalize_value (.arr [.str ['a'], .str ['!'], .str ['b']]) =
      ['a', ' ', ' ', 'b'] := by decide

theorem normalizeList_append_drop (xs ys : List JValue) (v : JValue)
    (h : rawKeep v = false) :
    normalizeList (xs ++ v :: ys) = normalizeList (xs ++ ys) := by
  induction xs with
  | nil => simpa using normalizeList_cons_drop v ys h
  | cons x xs ih => simp [normalizeList, ih]

/-- Claim C4 amended: `normalize_value` on a list normalizes each element and
joins with single spaces, but the elements dropped are exactly those that are
null or whose raw string form is blank (`str(item).strip() == ""`); an
element whose raw form is non-blank and whose normalization is empty is kept
and contributes an empty component, so doubled (or leading or trailing)
spaces can occur.  Dropped elements leave the result unchanged wherever they
sit. -/
theorem C4_amended_null_or_blank_dropped (xs ys : List JValue) (v : JValue)
    (h : rawKeep v = false) :
    normalize_value (.arr (xs ++ v :: ys)) = normalize_value (.arr (xs ++ ys)) := by
  show List.intercalate [' '] (normalizeList (xs ++ v :: ys)) =
       List.intercalate [' '] (normalizeList (xs ++ ys))
  rw [normalizeList_append_drop xs ys v h]

theorem C4_amended_null_or_blank_dropped_witness :
    rawKeep JValue.null = false ∧
    rawKeep (.str [' ', '\t']) = false ∧
    normalize_value (.arr [.str ['a'], .null, .str ['b']]) =
      normalize_value (.arr [.str ['a'], .str ['b']]) ∧
    normalize_value (.arr [.str ['a'], .str [' ', '\t'], .str ['b']]) =
      normalize_value (.arr [.str ['a'], .str ['b']]) :=
  ⟨rfl, by decide,
   C4_amended_null_or_blank_dropped [.str ['a']] [.str ['b']] .null (by decide),
   C4_amended_null_or_blank_dropped [.str ['a']] [.str ['b']] (.str [' ', '\t'])
     (by decide)⟩

/-! ## Claim C5 -/

/-- Claim C5: when the expected value for a field is absent or empty, the
comparison is skipped with no assertion raised, and the outcome is the
distinct no-expectation warning, which a non-skipped evaluation (expected
value present and non-empty) never produces — so the skip is not conflated
with a pass. -/
theorem C5_skip_surfaced_distinct (ratio : List Char → List Char → Nat)
    (consolidated expected : List (String × List Char)) (f : String) :
    ((lookupA expected f = none ∨ lookupA expected f = some []) →
      evaluate_field ratio consolidated expected f =
        (.ok (), some ("Warning: no expected pattern defined for " ++ f))) ∧
    (∀ p, lookupA expected f = some p → p ≠ [] →
      (evaluate_field ratio consolidated expected f).snd = none) := by
  constructor
  · rintro (h | h) <;> simp [evaluate_field, h]
  · intro p hp hne
    simp [evaluate_field, hp, hne]

theorem C5_skip_surfaced_distinct_witness :
    evaluate_field (fun _ _ => 0) [] [] "Location" =
      (.ok (), some ("Warning: no expected pattern defined for " ++ "Location")) ∧
    (evaluate_field (fun _ _ => 0) [] [("Location", ['x'])] "Location").snd = none :=
  ⟨(C5_skip_surfaced_distinct (fun _ _ => 0) [] [] "Location").1 (Or.inl rfl),
   (C5_skip_surfaced_distinct (fun _ _ => 0) [] [("Location", ['x'])]
      "Location").2 ['x'] (by decide) (by decide)⟩

/-! ## Claim C6 -/

/-- Claim C6: with an expected value present and non-empty, the field
comparison passes exactly when the token-set ratio of the consolidated and
expected values reaches the threshold, which the code fixes at 50; the
comparison is inclusive, so a score equal to the threshold passes and one
below it fails. -/
theorem C6_threshold_inclusive (ratio : List Char → List Char → Nat)
    (consolidated expected : List (String × List Char)) (f : String)
    (p : List Char) (hp : lookupA expected f = some p) (hne : p ≠ []) :
    ((evaluate_field ratio consolidated expected f).fst = .ok () ↔
      FUZZY_MATCH_THRESHOLD ≤ ratio ((lookupA consolidated f).getD []) p) := by
  simp only [evaluate_field, hp]
  rw [if_neg hne]
  constructor
  · intro h
    by_contra hlt
    simp [assertGreaterEqual, hlt] at h
  · intro h
    simp [assertGreaterEqual, h]

theorem C6_threshold_inclusive_witness :
    (evaluate_field (fun _ _ => 50) [] [("f", ['y'])] "f").fst = .ok () ∧
    ¬ (evaluate_field (fun _ _ => 49) [] [("f", ['y'])] "f").fst = .ok () := by
  constructor
  · exact (C6_threshold_inclusive (fun _ _ => 50) [] [("f", ['y'])] "f" ['y']
      (by decide) (by decide)).mpr (by decide)
  · intro h
    exact absurd ((C6_threshold_inclusive (fun _ _ => 49) [] [("f", ['y'])] "f"
      ['y'] (by decide) (by decide)).mp h) (by decide)

/-! ## Claim C9 -/

/-- Claim C9: the similarity scorer fails with the distinct
`EmptyInputError` exactly on an empty `list_a`; on a non-empty `list_a` it
returns a percentage, never the error. -/
theorem C9_empty_first_list_is_error (sim : String → String → ℚ)
    (list_a list_b : List String) :
    compute_max_pairwise_similarity sim list_a list_b =
      .error .emptyListA ↔ list_a = [] := by
  cases list_a with
  | nil => simp [compute_max_pairwise_similarity]
  | cons a rest => simp [compute_max_pairwise_similarity]

/-! ## `job_data` lemmas for claims C7, C8, C10 -/

theorem fieldContrib_eq_empty (job : Record) (f : String)
    (h : ∀ v, lookupA job f = some v → normalize_value v = []) :
    fieldContrib job f = [] := by
  unfold fieldContrib
  cases hv : lookupA job f with
  | none => rfl
  | some v => simpa [hv] using h v hv

theorem jobFieldAppends_eq_nil (job : Record) (fields : List String) (f : String)
    (h : fieldContrib job f = []) :
    jobFieldAppends job fields f = [] := by
  induction fields with
  | nil => rfl
  | cons g rest ih =>
    by_cases hg : g = f
    · subst hg
      simp [jobFieldAppends, h, ih]
    · simp [jobFieldAppends, hg, ih]

theorem collectField_eq_nil (jobs : List Record) (fields : List String)
    (f : String) (h : ∀ job ∈ jobs, fieldContrib job f = []) :
    collectField jobs fields f = [] := by
  induction jobs with
  | nil => rfl
  | cons job rest ih =>
    have h1 : fieldContrib job f = [] := h job (by simp)
    have h2 : ∀ j ∈ rest, fieldContrib j f = [] := fun j hj => h j (by simp [hj])
    simp [collectField, jobFieldAppends_eq_nil job fields f h1, ih h2]

theorem lookupA_jobData_filterMap_not_mem (jobs : List Record)
    (fields : List String) (f : String) (ks : List String) (hf : f ∉ ks) :
    lookupA (ks.filterMap (fun g =>
      if collectField jobs fields g = [] then none
      else some (g, List.intercalate [' '] (collectField jobs fields g)))) f =
      none := by
  induction ks with
  | nil => rfl
  | cons g ks ih =>
    have hgf : g ≠ f := fun h => hf (h ▸ List.mem_cons_self g ks)
    have hf' : f ∉ ks := fun h => hf (List.mem_cons_of_mem g h)
    by_cases hc : collectField jobs fields g = []
    · simp [hc, ih hf']
    · simp [hc, lookupA, hgf, ih hf']

theorem mem_foldl_dedup (fields : List String) (f : String) :
    ∀ acc : List String,
      f ∈ fields.foldl (fun acc g => if g ∈ acc then acc else acc ++ [g]) acc ↔
      f ∈ acc ∨ f ∈ fields := by
  induction fields with
  | nil => intro acc; simp
  | cons g rest ih =>
    intro acc
    show f ∈ rest.foldl _ (if g ∈ acc then acc else acc ++ [g]) ↔ _
    rw [ih]
    by_cases hg : g ∈ acc
    · simp only [if_pos hg, List.mem_cons]
      constructor
      · rintro (h | h)
        · exact Or.inl h
        · exact Or.inr (Or.inr h)
      · rintro (h | h | h)
        · exact Or.inl h
        · exact Or.inl (h ▸ hg)
        · exact Or.inr h
    · simp only [if_neg hg, List.mem_append, List.mem_singleton, List.mem_cons]
      tauto

theorem mem_dedupKeys (fields : List String) (f : String) :
    f ∈ dedupKeys fields ↔ f ∈ fields := by
  unfold dedupKeys
  rw [mem_foldl_dedup]
  simp

theorem nodup_foldl_dedup (fields : List String) :
    ∀ acc : List String, acc.Nodup →
      (fields.foldl (fun acc g => if g ∈ acc then acc else acc ++ [g]) acc).Nodup := by
  induction fields with
  | nil => intro acc h; exact h
  | cons g rest ih =>
    intro acc hacc
    show (rest.foldl _ (if g ∈ acc then acc else acc ++ [g])).Nodup
    by_cases hg : g ∈ acc
    · rw [if_pos hg]; exact ih acc hacc
    · rw [if_neg hg]
      refine ih _ ?_
      rw [List.nodup_append]
      exact ⟨hacc, List.nodup_singleton g, by simpa using hg⟩

theorem nodup_dedupKeys (fields : List String) : (dedupKeys fields).Nodup :=
  nodup_foldl_dedup fields [] List.nodup_nil

/-- Claim C7: a field that is absent from every record, or whose value
normalizes to the empty string in every record, does not appear among the
keys of the map `job_data` returns. -/
theorem C7_empty_fields_omitted (jobs : List Record) (fields : List String)
    (f : String)
    (h : ∀ job ∈ jobs, ∀ v, lookupA job f = some v → normalize_value v = []) :
    lookupA (job_data jobs fields) f = none := by
  have hcontrib : ∀ job ∈ jobs, fieldContrib job f = [] :=
    fun job hj => fieldContrib_eq_empty job f (h job hj)
  have hcoll : collectField jobs fields f = [] :=
    collectField_eq_nil jobs fields f hcontrib
  unfold job_data
  induction dedupKeys fields with
  | nil => rfl
  | cons g ks ih =>
    by_cases hg : g = f
    · subst hg
      simp [hcoll, ih]
    · by_cases hc : collectField jobs fields g = []
      · simp [hc, ih]
      · simp [hc, lookupA, hg, ih]

theorem C7_empty_fields_omitted_witness :
    lookupA (job_data [[("g", .str ['x'])], [("f", .null)], [("f", .str [' '])]]
      ["f", "g"]) "f" = none := by
  apply C7_empty_fields_omitted
  intro job hj v hv
  simp only [List.mem_cons, List.mem_singleton] at hj
  rcases hj with h | h | h | h
  · subst h; simp [lookupA] at hv
  · subst h
    simp [lookupA] at hv
    subst hv; rfl
  · subst h
    simp [lookupA] at hv
    subst hv; decide
  · exact absurd h (by simp)

/-- The retained normalized values of field `f`, one per record that holds a
non-trivially-normalizing value, in record order.  Stated from the spec's
words ("all retained normalized values for a field ... preserving record
order") to compare with what `job_data` computes. -/
def retainedField (jobs : List Record) (f : String) : List (List Char) :=
  match jobs with
  | [] => []
  | job :: rest =>
    (if fieldContrib job f = [] then [] else [fieldContrib job f]) ++
    retainedField rest f

theorem jobFieldAppends_not_mem (job : Record) (fields : List String)
    (f : String) (h : f ∉ fields) :
    jobFieldAppends job fields f = [] := by
  induction fields with
  | nil => rfl
  | cons g rest ih =>
    have hg : g ≠ f := fun hgf => h (hgf ▸ List.mem_cons_self g rest)
    have h' : f ∉ rest := fun hm => h (List.mem_cons_of_mem g hm)
    simp [jobFieldAppends, hg, ih h']

theorem jobFieldAppends_count_one (job : Record) (fields : List String)
    (f : String) (h : fields.count f = 1) :
    jobFieldAppends job fields f =
      (if fieldContrib job f = [] then [] else [fieldContrib job f]) := by
  induction fields with
  | nil => simp at h
  | cons g rest ih =>
    by_cases hg : g = f
    · subst hg
      have hrest : rest.count g = 0 := by
        have := List.count_cons_self g rest
        omega
      have hnm : g ∉ rest := by
        rw [← List.count_eq_zero]
        exact hrest
      by_cases hc : fieldContrib job g = []
      · simp [jobFieldAppends, hc, jobFieldAppends_not_mem job rest g hnm]
      · simp [jobFieldAppends, hc, jobFieldAppends_not_mem job rest g hnm]
    · have hcount : rest.count f = 1 := by
        rw [List.count_cons] at h
        simpa [hg] using h
      simp [jobFieldAppends, hg, ih hcount]

theorem collectField_count_one (jobs : List Record) (fields : List String)
    (f : String) (h : fields.count f = 1) :
    collectField jobs fields f = retainedField jobs f := by
  induction jobs with
  | nil => rfl
  | cons job rest ih =>
    show jobFieldAppends job fields f ++ collectField rest fields f = _
    rw [jobFieldAppends_count_one job fields f h, ih]
    rfl

theorem lookupA_jobData_filterMap_mem (jobs : List Record)
    (fields : List String) (f : String) (ks : List String) (hnd : ks.Nodup)
    (hf : f ∈ ks) :
    lookupA (ks.filterMap (fun g =>
      if collectField jobs fields g = [] then none
      else some (g, List.intercalate [' '] (collectField jobs fields g)))) f =
    (if collectField jobs fields f = [] then none
     else some (List.intercalate [' '] (collectField jobs fields f))) := by
  induction ks with
  | nil => simp at hf
  | cons g ks ih =>
    have hnd' : ks.Nodup := (List.nodup_cons.mp hnd).2
    have hgks : g ∉ ks := (List.nodup_cons.mp hnd).1
    rcases List.mem_cons.mp hf with hfg | hfk
    · subst hfg
      by_cases hc : collectField jobs fields f = []
      · have hFf : (if collectField jobs fields f = [] then none
            else some (f, List.intercalate [' '] (collectField jobs fields f))) =
            (none : Option (String × List Char)) := if_pos hc
        rw [List.filterMap_cons, hFf,
          lookupA_jobData_filterMap_not_mem jobs fields f ks hgks, if_pos hc]
      · have hFf : (if collectField jobs fields f = [] then none
            else some (f, List.intercalate [' '] (collectField jobs fields f))) =
            some (f, List.intercalate [' '] (collectField jobs fields f)) :=
          if_neg hc
        rw [List.filterMap_cons, hFf, if_neg hc]
        show lookupA ((f, _) :: _) f = _
        simp [lookupA]
    · have hgf : g ≠ f := fun hgf => hgks (hgf ▸ hfk)
      by_cases hc : collectField jobs fields g = []
      · have hFg : (if collectField jobs fields g = [] then none
            else some (g, List.intercalate [' '] (collectField jobs fields g))) =
            (none : Option (String × List Char)) := if_pos hc
        rw [List.filterMap_cons, hFg]
        exact ih hnd' hfk
      · have hFg : (if collectField jobs fields g = [] then none
            else some (g, List.intercalate [' '] (collectField jobs fields g))) =
            some (g, List.intercalate [' '] (collectField jobs fields g)) :=
          if_neg hc
        rw [List.filterMap_cons, hFg]
        show lookupA ((g, _) :: _) f = _
        simp only [lookupA, if_neg hgf]
        exact ih hnd' hfk

/-- Claim C8: when `f` occurs once in the field list, the consolidated value
`job_data` produces for `f` is exactly the retained normalized values in
record order joined by single spaces (and the key is omitted when nothing was
retained). -/
theorem C8_record_order_join (jobs : List Record) (fields : List String)
    (f : String) (h : fields.count f = 1) :
    lookupA (job_data jobs fields) f =
      (if retainedField jobs f = [] then none
       else some (List.intercalate [' '] (retainedField jobs f))) := by
  have hmem : f ∈ fields := by
    by_contra hnm
    rw [← List.count_eq_zero] at hnm
    omega
  unfold job_data
  rw [lookupA_jobData_filterMap_mem jobs fields f (dedupKeys fields)
    (nodup_dedupKeys fields) ((mem_dedupKeys fields f).mpr hmem),
    collectField_count_one jobs fields f h]

theorem C8_record_order_join_witness :
    lookupA (job_data [[("f", .str ['a'])], [("f", .str ['b'])]] ["f"]) "f" =
      some ['a', ' ', 'b'] := by
  rw [C8_record_order_join [[("f", .str ['a'])], [("f", .str ['b'])]] ["f"] "f"
    (by decide)]
  decide

/-! ## Claim C10 -/

theorem fieldContrib_append_null (rec : Record) (f g : String)
    (h : lookupA rec f = none) :
    fieldContrib (rec ++ [(f, .null)]) g = fieldContrib rec g := by
  unfold fieldContrib
  rw [lookupA_append]
  by_cases hg : f = g
  · subst hg
    rw [h]
    simp [lookupA]
  · cases hx : lookupA rec g with
    | some v => rfl
    | none => simp [lookupA, hg]

theorem jobFieldAppends_congr (j₁ j₂ : Record) (fields : List String)
    (f : String) (h : ∀ g, fieldContrib j₁ g = fieldContrib j₂ g) :
    jobFieldAppends j₁ fields f = jobFieldAppends j₂ fields f := by
  induction fields with
  | nil => rfl
  | cons g rest ih => simp [jobFieldAppends, h g, ih]

theorem collectField_append (l₁ l₂ : List Record) (fields : List String)
    (f : String) :
    collectField (l₁ ++ l₂) fields f =
      collectField l₁ fields f ++ collectField l₂ fields f := by
  induction l₁ with
  | nil => rfl
  | cons job rest ih => simp [collectField, ih]

theorem filterMap_congrA {α β : Type} (l : List α) (f g : α → Option β)
    (h : ∀ a, f a = g a) : l.filterMap f = l.filterMap g := by
  induction l with
  | nil => rfl
  | cons a rest ih => rw [List.filterMap_cons, List.filterMap_cons, h a, ih]

/-- Claim C10: a record carrying an explicit JSON null for a field is
consolidated exactly like a record lacking that field: the two record lists
yield identical `job_data` outputs for every field list. -/
theorem C10_null_field_like_absent (pre post : List Record) (rec : Record)
    (fields : List String) (f : String) (h : lookupA rec f = none) :
    job_data (pre ++ (rec ++ [(f, .null)]) :: post) fields =
      job_data (pre ++ rec :: post) fields := by
  have hcollect : ∀ g, collectField (pre ++ (rec ++ [(f, .null)]) :: post) fields g =
      collectField (pre ++ rec :: post) fields g := by
    intro g
    have e1 : collectField ((rec ++ [(f, .null)]) :: post) fields g =
        jobFieldAppends (rec ++ [(f, .null)]) fields g ++
        collectField post fields g := rfl
    have e2 : collectField (rec :: post) fields g =
        jobFieldAppends rec fields g ++ collectField post fields g := rfl
    rw [collectField_append, collectField_append, e1, e2,
      jobFieldAppends_congr (rec ++ [(f, JValue.null)]) rec fields g
        (fun g' => fieldContrib_append_null rec f g' h)]
  unfold job_data
  exact filterMap_congrA (dedupKeys fields) _ _ (fun g => by rw [hcollect g])

theorem C10_null_field_like_absent_witness :
    job_data [[("g", .str ['x']), ("f", .null)]] ["f", "g"] =
      job_data [[("g", .str ['x'])]] ["f", "g"] :=
  C10_null_field_like_absent [] [] [("g", .str ['x'])] ["f", "g"] "f" rfl

/-! ## Claim C3: idempotence of the scalar pipeline

The second application of the pipeline is the identity because the first
pass leaves a string over the alphabet of lower-case ASCII word characters
plus single separating spaces, with no leading or trailing space and no
occurrence of `senior` or `junior`.  The lemmas below establish those
invariants and the corresponding no-op property of every stage. -/

theorem replace_senior_cons_eq (rest : List Char) :
    replace_senior ('s' :: 'e' :: 'n' :: 'i' :: 'o' :: 'r' :: rest) =
      's' :: 'r' :: replace_senior rest := rfl

theorem replace_senior_cons_ne (c : Char) (rest : List Char)
    (h : ∀ rest₁, c = 's' → rest = 'e' :: 'n' :: 'i' :: 'o' :: 'r' :: rest₁ → False) :
    replace_senior (c :: rest) = c :: replace_senior rest := by
  conv_lhs => unfold replace_senior
  split
  · rename_i rest₁ heq
    injection heq with h1 h2
    exact (h rest₁ h1 h2).elim
  · rename_i c₂ rest₂ hne heq
    injection heq with h1 h2
    rw [h1, h2]
  · rename_i x heq
    exact List.noConfusion heq

theorem replace_junior_cons_eq (rest : List Char) :
    replace_junior ('j' :: 'u' :: 'n' :: 'i' :: 'o' :: 'r' :: rest) =
      'j' :: 'r' :: replace_junior rest := rfl

theorem replace_junior_cons_ne (c : Char) (rest : List Char)
    (h : ∀ rest₁, c = 'j' → rest = 'u' :: 'n' :: 'i' :: 'o' :: 'r' :: rest₁ → False) :
    replace_junior (c :: rest) = c :: replace_junior rest := by
  conv_lhs => unfold replace_junior
  split
  · rename_i rest₁ heq
    injection heq with h1 h2
    exact (h rest₁ h1 h2).elim
  · rename_i c₂ rest₂ hne heq
    injection heq with h1 h2
    rw [h1, h2]
  · rename_i x heq
    exact List.noConfusion heq

theorem suffix_seniorL_cases (v : List Char) (h : v <:+ seniorL) :
    v = seniorL ∨ v = ['e','n','i','o','r'] ∨ v = ['n','i','o','r'] ∨
    v = ['i','o','r'] ∨ v = ['o','r'] ∨ v = ['r'] ∨ v = [] := by
  have hm : v ∈ List.tails seniorL := (List.mem_tails v seniorL).mpr h
  simp [seniorL, List.tails] at hm
  tauto

theorem suffix_juniorL_cases (v : List Char) (h : v <:+ juniorL) :
    v = juniorL ∨ v = ['u','n','i','o','r'] ∨ v = ['n','i','o','r'] ∨
    v = ['i','o','r'] ∨ v = ['o','r'] ∨ v = ['r'] ∨ v = [] := by
  have hm : v ∈ List.tails juniorL := (List.mem_tails v juniorL).mpr h
  simp [juniorL, List.tails] at hm
  tauto

/-- A suffix of `senior` that comes out as a prefix of `replace_senior s` was
already a prefix of `s`: the replacement never manufactures partial matches. -/
theorem rsenior_sfx_transfer (s : List Char) :
    ∀ v, v <:+ seniorL → v <+: replace_senior s → v <+: s := by
  induction s using replace_senior.induct with
  | case1 rest ih =>
    intro v hv hp
    rw [replace_senior_cons_eq] at hp
    rcases suffix_seniorL_cases v hv with h7 | h7 | h7 | h7 | h7 | h7 | h7 <;>
      subst h7
    · rw [seniorL] at hp
      obtain ⟨h1, hp⟩ := List.cons_prefix_cons.mp hp
      obtain ⟨h2, _⟩ := List.cons_prefix_cons.mp hp
      exact absurd h2 (by decide)
    · exact absurd (List.cons_prefix_cons.mp hp).1 (by decide)
    · exact absurd (List.cons_prefix_cons.mp hp).1 (by decide)
    · exact absurd (List.cons_prefix_cons.mp hp).1 (by decide)
    · exact absurd (List.cons_prefix_cons.mp hp).1 (by decide)
    · exact absurd (List.cons_prefix_cons.mp hp).1 (by decide)
    · exact ⟨_, rfl⟩
  | case2 c rest h ih =>
    intro v hv hp
    rw [replace_senior_cons_ne c rest h] at hp
    cases v with
    | nil => exact ⟨_, rfl⟩
    | cons a v' =>
      obtain ⟨ha, hp'⟩ := List.cons_prefix_cons.mp hp
      have hv' : v' <:+ seniorL := (List.suffix_cons a v').trans hv
      exact List.cons_prefix_cons.mpr ⟨ha, ih v' hv' hp'⟩
  | case3 =>
    intro v hv hp
    exact hp

theorem rjunior_sfx_transfer (s : List Char) :
    ∀ v, v <:+ juniorL → v <+: replace_junior s → v <+: s := by
  induction s using replace_junior.induct with
  | case1 rest ih =>
    intro v hv hp
    rw [replace_junior_cons_eq] at hp
    rcases suffix_juniorL_cases v hv with h7 | h7 | h7 | h7 | h7 | h7 | h7 <;>
      subst h7
    · rw [juniorL] at hp
      obtain ⟨h1, hp⟩ := List.cons_prefix_cons.mp hp
      obtain ⟨h2, _⟩ := List.cons_prefix_cons.mp hp
      exact absurd h2 (by decide)
    · exact absurd (List.cons_prefix_cons.mp hp).1 (by decide)
    · exact absurd (List.cons_prefix_cons.mp hp).1 (by decide)
    · exact absurd (List.cons_prefix_cons.mp hp).1 (by decide)
    · exact absurd (List.cons_prefix_cons.mp hp).1 (by decide)
    · exact absurd (List.cons_prefix_cons.mp hp).1 (by decide)
    · exact ⟨_, rfl⟩
  | case2 c rest h ih =>
    intro v hv hp
    rw [replace_junior_cons_ne c rest h] at hp
    cases v with
    | nil => exact ⟨_, rfl⟩
    | cons a v' =>
      obtain ⟨ha, hp'⟩ := List.cons_prefix_cons.mp hp
      have hv' : v' <:+ juniorL := (List.suffix_cons a v').trans hv
      exact List.cons_prefix_cons.mpr ⟨ha, ih v' hv' hp'⟩
  | case3 =>
    intro v hv hp
    exact hp

/-- A suffix of `senior` that is a prefix of `replace_junior s` was already a
prefix of `s` (no suffix of `senior` starts with `j`). -/
theorem rjunior_senior_sfx_transfer (s : List Char) :
    ∀ v, v <:+ seniorL → v <+: replace_junior s → v <+: s := by
  induction s using replace_junior.induct with
  | case1 rest ih =>
    intro v hv hp
    rw [replace_junior_cons_eq] at hp
    rcases suffix_seniorL_cases v hv with h7 | h7 | h7 | h7 | h7 | h7 | h7 <;>
      subst h7
    · rw [seniorL] at hp
      exact absurd (List.cons_prefix_cons.mp hp).1 (by decide)
    · exact absurd (List.cons_prefix_cons.mp hp).1 (by decide)
    · exact absurd (List.cons_prefix_cons.mp hp).1 (by decide)
    · exact absurd (List.cons_prefix_cons.mp hp).1 (by decide)
    · exact absurd (List.cons_prefix_cons.mp hp).1 (by decide)
    · exact absurd (List.cons_prefix_cons.mp hp).1 (by decide)
    · exact ⟨_, rfl⟩
  | case2 c rest h ih =>
    intro v hv hp
    rw [replace_junior_cons_ne c rest h] at hp
    cases v with
    | nil => exact ⟨_, rfl⟩
    | cons a v' =>
      obtain ⟨ha, hp'⟩ := List.cons_prefix_cons.mp hp
      have hv' : v' <:+ seniorL := (List.suffix_cons a v').trans hv
      exact List.cons_prefix_cons.mpr ⟨ha, ih v' hv' hp'⟩
  | case3 =>
    intro v hv hp
    exact hp

/-- The output of `replace_senior` never contains `senior`. -/
theorem no_senior_in_rsenior (s : List Char) : ¬ seniorL <:+: replace_senior s := by
  induction s using replace_senior.induct with
  | case1 rest ih =>
    intro hin
    rw [replace_senior_cons_eq] at hin
    rcases List.infix_cons_iff.mp hin with hpre | hin2
    · rw [seniorL] at hpre
      obtain ⟨_, hpre⟩ := List.cons_prefix_cons.mp hpre
      exact absurd (List.cons_prefix_cons.mp hpre).1 (by decide)
    · rcases List.infix_cons_iff.mp hin2 with hpre | hin3
      · rw [seniorL] at hpre
        exact absurd (List.cons_prefix_cons.mp hpre).1 (by decide)
      · exact ih hin3
  | case2 c rest h ih =>
    intro hin
    rw [replace_senior_cons_ne c rest h] at hin
    rcases List.infix_cons_iff.mp hin with hpre | hin2
    · rw [seniorL] at hpre
      obtain ⟨hc, hpre'⟩ := List.cons_prefix_cons.mp hpre
      obtain ⟨t, ht⟩ :=
        rsenior_sfx_transfer rest ['e','n','i','o','r'] ⟨['s'], rfl⟩ hpre'
      exact h t hc.symm ht.symm
    · exact ih hin2
  | case3 =>
    intro hin
    obtain ⟨u, t, hut⟩ := hin
    rw [show replace_senior [] = [] from rfl] at hut
    simp [seniorL] at hut
  
/-- The output of `replace_junior` never contains `junior`. -/
theorem no_junior_in_rjunior (s : List Char) : ¬ juniorL <:+: replace_junior s := by
  induction s using replace_junior.induct with
  | case1 rest ih =>
    intro hin
    rw [replace_junior_cons_eq] at hin
    rcases List.infix_cons_iff.mp hin with hpre | hin2
    · rw [juniorL] at hpre
      obtain ⟨_, hpre⟩ := List.cons_prefix_cons.mp hpre
      exact absurd (List.cons_prefix_cons.mp hpre).1 (by decide)
    · rcases List.infix_cons_iff.mp hin2 with hpre | hin3
      · rw [juniorL] at hpre
        exact absurd (List.cons_prefix_cons.mp hpre).1 (by decide)
      · exact ih hin3
  | case2 c rest h ih =>
    intro hin
    rw [replace_junior_cons_ne c rest h] at hin
    rcases List.infix_cons_iff.mp hin with hpre | hin2
    · rw [juniorL] at hpre
      obtain ⟨hc, hpre'⟩ := List.cons_prefix_cons.mp hpre
      obtain ⟨t, ht⟩ :=
        rjunior_sfx_transfer rest ['u','n','i','o','r'] ⟨['j'], rfl⟩ hpre'
      exact h t hc.symm ht.symm
    · exact ih hin2
  | case3 =>
    intro hin
    obtain ⟨u, t, hut⟩ := hin
    rw [show replace_junior [] = [] from rfl] at hut
    simp [juniorL] at hut

/-- `replace_junior` cannot create an occurrence of `senior`. -/
theorem no_senior_in_rjunior (s : List Char) :
    ¬ seniorL <:+: s → ¬ seniorL <:+: replace_junior s := by
  induction s using replace_junior.induct with
  | case1 rest ih =>
    intro hs hin
    rw [replace_junior_cons_eq] at hin
    have hrest : ¬ seniorL <:+: rest := fun h2 =>
      hs (h2.trans (show rest <:+ _ from ⟨['j','u','n','i','o','r'], rfl⟩).isInfix)
    rcases List.infix_cons_iff.mp hin with hpre | hin2
    · rw [seniorL] at hpre
      exact absurd (List.cons_prefix_cons.mp hpre).1 (by decide)
    · rcases List.infix_cons_iff.mp hin2 with hpre | hin3
      · rw [seniorL] at hpre
        exact absurd (List.cons_prefix_cons.mp hpre).1 (by decide)
      · exact ih hrest hin3
  | case2 c rest h ih =>
    intro hs hin
    rw [replace_junior_cons_ne c rest h] at hin
    have hrest : ¬ seniorL <:+: rest := fun h2 =>
      hs (List.infix_cons_iff.mpr (Or.inr h2))
    rcases List.infix_cons_iff.mp hin with hpre | hin2
    · rw [seniorL] at hpre
      obtain ⟨hc, hpre'⟩ := List.cons_prefix_cons.mp hpre
      obtain ⟨t, ht⟩ :=
        rjunior_senior_sfx_transfer rest ['e','n','i','o','r'] ⟨['s'], rfl⟩ hpre'
      apply hs
      refine ⟨[], t, ?_⟩
      subst hc
      rw [seniorL, ← ht]
      simp
    · exact ih hrest hin2
  | case3 =>
    intro hs hin
    exact hs hin

theorem replace_senior_id (t : List Char) (h : ¬ seniorL <:+: t) :
    replace_senior t = t := by
  induction t using replace_senior.induct with
  | case1 rest ih => exact absurd ⟨[], rest, rfl⟩ h
  | case2 c rest hne ih =>
    rw [replace_senior_cons_ne c rest hne,
      ih (fun h2 => h (List.infix_cons_iff.mpr (Or.inr h2)))]
  | case3 => rfl

theorem replace_junior_id (t : List Char) (h : ¬ juniorL <:+: t) :
    replace_junior t = t := by
  induction t using replace_junior.induct with
  | case1 rest ih => exact absurd ⟨[], rest, rfl⟩ h
  | case2 c rest hne ih =>
    rw [replace_junior_cons_ne c rest hne,
      ih (fun h2 => h (List.infix_cons_iff.mpr (Or.inr h2)))]
  | case3 => rfl

theorem squeeze_ws_one (c : Char) :
    squeeze_ws [c] = [if pyIsSpace c then ' ' else c] := rfl

theorem squeeze_ws_two (c d : Char) (rest : List Char) :
    squeeze_ws (c :: d :: rest) =
      if pyIsSpace c && pyIsSpace d then squeeze_ws (d :: rest)
      else (if pyIsSpace c then ' ' else c) :: squeeze_ws (d :: rest) := rfl

theorem squeeze_ws_head_space (rest : List Char) :
    ∀ d, pyIsSpace d = true → ∃ t', squeeze_ws (d :: rest) = ' ' :: t' := by
  induction rest with
  | nil => exact fun d hd => ⟨[], by rw [squeeze_ws_one, if_pos hd]⟩
  | cons e rest' ih =>
    intro d hd
    by_cases he : pyIsSpace e = true
    · obtain ⟨t', ht⟩ := ih e he
      exact ⟨t', by rw [squeeze_ws_two, if_pos (by simp [hd, he]), ht]⟩
    · refine ⟨squeeze_ws (e :: rest'), ?_⟩
      rw [squeeze_ws_two, if_neg (by simp [hd, he]), if_pos hd]

theorem squeeze_ws_head_nonspace (d : Char) (rest : List Char)
    (hd : pyIsSpace d = false) :
    ∃ t', squeeze_ws (d :: rest) = d :: t' := by
  cases rest with
  | nil => exact ⟨[], by rw [squeeze_ws_one, if_neg (by simp [hd])]⟩
  | cons e rest' =>
    refine ⟨squeeze_ws (e :: rest'), ?_⟩
    rw [squeeze_ws_two, if_neg (by simp [hd]), if_neg (by simp [hd])]

theorem mem_squeeze_ws (s : List Char) :
    ∀ c ∈ squeeze_ws s, c = ' ' ∨ (c ∈ s ∧ pyIsSpace c = false) := by
  induction s using squeeze_ws.induct with
  | case1 => intro c hc; simp [squeeze_ws] at hc
  | case2 d =>
    intro c hc
    rw [squeeze_ws_one] at hc
    simp only [List.mem_singleton] at hc
    by_cases hd : pyIsSpace d = true
    · rw [if_pos hd] at hc; exact Or.inl hc
    · rw [if_neg hd] at hc
      subst hc
      exact Or.inr ⟨by simp, by simpa using hd⟩
  | case3 c0 d rest hcond ih =>
    intro c hc
    rw [squeeze_ws_two, if_pos hcond] at hc
    rcases ih c hc with h | ⟨hm, hs⟩
    · exact Or.inl h
    · exact Or.inr ⟨List.mem_cons_of_mem c0 hm, hs⟩
  | case4 c0 d rest hcond ih =>
    intro c hc
    rw [squeeze_ws_two, if_neg hcond] at hc
    rcases List.mem_cons.mp hc with hh | ht
    · by_cases h0 : pyIsSpace c0 = true
      · rw [if_pos h0] at hh; exact Or.inl hh
      · rw [if_neg h0] at hh
        subst hh
        exact Or.inr ⟨by simp, by simpa using h0⟩
    · rcases ih c ht with h | ⟨hm, hs⟩
      · exact Or.inl h
      · exact Or.inr ⟨List.mem_cons_of_mem c0 hm, hs⟩

theorem squeeze_pref_transfer (s : List Char) :
    ∀ pat, (∀ c ∈ pat, pyIsSpace c = false) → pat <+: squeeze_ws s →
      pat <+: s := by
  induction s using squeeze_ws.induct with
  | case1 =>
    intro pat hsf hp
    exact hp
  | case2 d =>
    intro pat hsf hp
    rw [squeeze_ws_one] at hp
    cases pat with
    | nil => exact ⟨_, rfl⟩
    | cons a pat' =>
      obtain ⟨ha, hp'⟩ := List.cons_prefix_cons.mp hp
      have hpn : pat' = [] := by
        obtain ⟨t, ht⟩ := hp'
        exact (List.append_eq_nil.mp ht).1
      subst hpn
      by_cases hd : pyIsSpace d = true
      · rw [if_pos hd] at ha
        subst ha
        exact absurd (hsf ' ' (by simp)) (by decide)
      · rw [if_neg hd] at ha
        subst ha
        exact ⟨[], rfl⟩
  | case3 c0 d rest hcond ih =>
    intro pat hsf hp
    cases pat with
    | nil => exact ⟨_, rfl⟩
    | cons a pat' =>
      rw [squeeze_ws_two, if_pos hcond] at hp
      have hcd := hcond
      rw [Bool.and_eq_true] at hcd
      have hd : pyIsSpace d = true := hcd.2
      obtain ⟨t', ht⟩ := squeeze_ws_head_space rest d hd
      rw [ht] at hp
      obtain ⟨ha, _⟩ := List.cons_prefix_cons.mp hp
      subst ha
      exact absurd (hsf ' ' (by simp)) (by decide)
  | case4 c0 d rest hcond ih =>
    intro pat hsf hp
    rw [squeeze_ws_two, if_neg hcond] at hp
    cases pat with
    | nil => exact ⟨_, rfl⟩
    | cons a pat' =>
      obtain ⟨ha, hp'⟩ := List.cons_prefix_cons.mp hp
      have ha' : a = c0 := by
        by_cases h0 : pyIsSpace c0 = true
        · rw [if_pos h0] at ha
          subst ha
          exact absurd (hsf ' ' (by simp)) (by decide)
        · rwa [if_neg h0] at ha
      subst ha'
      exact List.cons_prefix_cons.mpr
        ⟨rfl, ih pat' (fun c hc => hsf c (List.mem_cons_of_mem _ hc)) hp'⟩

theorem squeeze_infix_transfer (s : List Char) :
    ∀ pat, (∀ c ∈ pat, pyIsSpace c = false) → pat <:+: squeeze_ws s →
      pat <:+: s := by
  induction s using squeeze_ws.induct with
  | case1 =>
    intro pat hsf hin
    exact hin
  | case2 d =>
    intro pat hsf hin
    rw [squeeze_ws_one] at hin
    rcases List.infix_cons_iff.mp hin with hpre | hin2
    · exact (squeeze_pref_transfer [d] pat hsf
        (by rw [squeeze_ws_one]; exact hpre)).isInfix
    · obtain ⟨u, t, hut⟩ := hin2
      have hpn : pat = [] := by
        rcases List.append_eq_nil.mp hut with ⟨h1, _⟩
        exact (List.append_eq_nil.mp h1).2
      subst hpn
      exact ⟨[], [d], rfl⟩
  | case3 c0 d rest hcond ih =>
    intro pat hsf hin
    rw [squeeze_ws_two, if_pos hcond] at hin
    exact List.infix_cons_iff.mpr (Or.inr (ih pat hsf hin))
  | case4 c0 d rest hcond ih =>
    intro pat hsf hin
    rw [squeeze_ws_two, if_neg hcond] at hin
    rcases List.infix_cons_iff.mp hin with hpre | hin2
    · exact (squeeze_pref_transfer (c0 :: d :: rest) pat hsf
        (by rw [squeeze_ws_two, if_neg hcond]; exact hpre)).isInfix
    · exact List.infix_cons_iff.mpr (Or.inr (ih pat hsf hin2))

/-- No two adjacent whitespace characters. -/
def noDoubleWS : List Char → Prop
  | c :: d :: rest =>
    ¬(pyIsSpace c = true ∧ pyIsSpace d = true) ∧ noDoubleWS (d :: rest)
  | _ => True

theorem noDoubleWS_tail (c : Char) (l : List Char) (h : noDoubleWS (c :: l)) :
    noDoubleWS l := by
  cases l with
  | nil => trivial
  | cons d rest => exact h.2

theorem noDoubleWS_append_right (u v : List Char) (h : noDoubleWS (u ++ v)) :
    noDoubleWS v := by
  induction u with
  | nil => exact h
  | cons x u' ih => exact ih (noDoubleWS_tail x (u' ++ v) h)

theorem noDoubleWS_append_left (u v : List Char) (h : noDoubleWS (u ++ v)) :
    noDoubleWS u := by
  induction u with
  | nil => trivial
  | cons x u' ih =>
    cases u' with
    | nil => trivial
    | cons y u'' => exact ⟨h.1, ih h.2⟩

theorem squeeze_noDoubleWS (s : List Char) : noDoubleWS (squeeze_ws s) := by
  induction s using squeeze_ws.induct with
  | case1 => trivial
  | case2 c => rw [squeeze_ws_one]; trivial
  | case3 c d rest hcond ih => rw [squeeze_ws_two, if_pos hcond]; exact ih
  | case4 c d rest hcond ih =>
    rw [squeeze_ws_two, if_neg hcond]
    cases hq : squeeze_ws (d :: rest) with
    | nil => trivial
    | cons q qs =>
      refine ⟨?_, by rw [hq] at ih; exact ih⟩
      rintro ⟨he, hqsp⟩
      by_cases hc : pyIsSpace c = true
      · have hd : pyIsSpace d = false := by simpa [hc] using hcond
        obtain ⟨t', ht⟩ := squeeze_ws_head_nonspace d rest hd
        rw [ht] at hq
        injection hq with hq1 _
        rw [← hq1] at hqsp
        exact absurd hqsp (by simp [hd])
      · rw [if_neg hc] at he
        exact hc he

theorem squeeze_ws_id (t : List Char) (hnd : noDoubleWS t)
    (hsp : ∀ c ∈ t, pyIsSpace c = true → c = ' ') :
    squeeze_ws t = t := by
  induction t using squeeze_ws.induct with
  | case1 => rfl
  | case2 c =>
    rw [squeeze_ws_one]
    by_cases hc : pyIsSpace c = true
    · rw [if_pos hc, hsp c (by simp) hc]
    · rw [if_neg hc]
  | case3 c d rest hcond ih =>
    have hcd := hcond
    rw [Bool.and_eq_true] at hcd
    exact absurd hcd hnd.1
  | case4 c d rest hcond ih =>
    rw [squeeze_ws_two, if_neg hcond]
    have h1 : (if pyIsSpace c then ' ' else c) = c := by
      by_cases hc : pyIsSpace c = true
      · rw [if_pos hc, hsp c (by simp) hc]
      · rw [if_neg hc]
    rw [h1, ih (noDoubleWS_tail c (d :: rest) hnd)
      (fun x hx hxs => hsp x (List.mem_cons_of_mem c hx) hxs)]

theorem dropWhile_head_not (p : Char → Bool) (l : List Char) :
    ∀ c, (l.dropWhile p).head? = some c → p c = false := by
  induction l with
  | nil => intro c hc; simp at hc
  | cons x l ih =>
    intro c hc
    by_cases hx : p x = true
    · rw [List.dropWhile_cons, if_pos hx] at hc
      exact ih c hc
    · rw [List.dropWhile_cons, if_neg hx] at hc
      simp only [List.head?_cons, Option.some.injEq] at hc
      subst hc
      simpa using hx

theorem head?_eq_of_pre {u v : List Char} (h : u <+: v) (hne : u ≠ []) :
    v.head? = u.head? := by
  obtain ⟨t, rfl⟩ := h
  cases u with
  | nil => exact absurd rfl hne
  | cons a u' => rfl

theorem pyStrip_head_not_space (t : List Char) :
    ∀ c, (pyStrip t).head? = some c → pyIsSpace c = false := by
  intro c hc
  unfold pyStrip at hc
  by_cases hne : (t.dropWhile pyIsSpace).rdropWhile pyIsSpace = []
  · rw [hne] at hc; simp at hc
  · have hv : (t.dropWhile pyIsSpace).head? = some c := by
      rw [head?_eq_of_pre
        (List.rdropWhile_prefix pyIsSpace (t.dropWhile pyIsSpace)) hne]
      exact hc
    exact dropWhile_head_not pyIsSpace t c hv

theorem pyStrip_last_not_space (t : List Char) :
    ∀ c, (pyStrip t).getLast? = some c → pyIsSpace c = false := by
  intro c hc
  unfold pyStrip at hc
  simp only [List.rdropWhile] at hc
  rw [List.getLast?_reverse] at hc
  exact dropWhile_head_not pyIsSpace _ c hc

theorem dropWhile_id_head (p : Char → Bool) (t : List Char)
    (h : ∀ c, t.head? = some c → p c = false) : t.dropWhile p = t := by
  cases t with
  | nil => rfl
  | cons x l => rw [List.dropWhile_cons, if_neg (by simp [h x rfl])]

theorem pyStrip_id (t : List Char)
    (hh : ∀ c, t.head? = some c → pyIsSpace c = false)
    (hl : ∀ c, t.getLast? = some c → pyIsSpace c = false) :
    pyStrip t = t := by
  unfold pyStrip
  rw [dropWhile_id_head pyIsSpace t hh]
  simp only [List.rdropWhile]
  rw [dropWhile_id_head pyIsSpace t.reverse
    (fun c hc => hl c (by rwa [List.head?_reverse] at hc))]
  exact List.reverse_reverse t

theorem pyStrip_isInfix (t : List Char) : pyStrip t <:+: t := by
  unfold pyStrip
  exact ((List.rdropWhile_prefix pyIsSpace (t.dropWhile pyIsSpace)).isInfix).trans
    ((List.dropWhile_suffix pyIsSpace).isInfix)

theorem pyStrip_noDouble (t : List Char) (h : noDoubleWS t) :
    noDoubleWS (pyStrip t) := by
  obtain ⟨u, hu⟩ := List.dropWhile_suffix (l := t) pyIsSpace
  rw [← hu] at h
  have h1 : noDoubleWS (t.dropWhile pyIsSpace) := noDoubleWS_append_right u _ h
  obtain ⟨w, hw⟩ :=
    List.rdropWhile_prefix pyIsSpace (t.dropWhile pyIsSpace)
  rw [← hw] at h1
  exact noDoubleWS_append_left _ w h1

/-- The character alphabet of pipeline output: lower-case ASCII letters,
digits, underscore, and the single space. -/
def stableOut (c : Char) : Bool :=
  (97 ≤ c.toNat && c.toNat ≤ 122) || (48 ≤ c.toNat && c.toNat ≤ 57) ||
  c.toNat = 95 || c.toNat = 32

theorem toNat_ofNat_small (m : Nat) (h : m < 55296) : (Char.ofNat m).toNat = m := by
  rw [Char.ofNat, dif_pos (Or.inl (by omega))]
  simp [Char.ofNatAux, Char.toNat, UInt32.ofNat', UInt32.toNat, BitVec.toNat_ofNatLt]

theorem toLower_not_upper (c : Char) :
    (Char.toLower c).toNat < 65 ∨ 90 < (Char.toLower c).toNat := by
  rw [Char.toLower]
  split
  · next h => rw [toNat_ofNat_small _ (by omega)]; omega
  · next h => omega

theorem mem_pyLower_not_upper (s : List Char) :
    ∀ c ∈ pyLower s, ¬(65 ≤ c.toNat ∧ c.toNat ≤ 90) := by
  intro c hc
  obtain ⟨b, _, rfl⟩ := List.mem_map.mp hc
  rcases toLower_not_upper b with h | h <;> omega

theorem mem_sub_dash (t : List Char) :
    ∀ c ∈ sub_dash_space t, c = ' ' ∨ c ∈ t := by
  intro c hc
  obtain ⟨b, hb, heq⟩ := List.mem_map.mp hc
  split at heq
  · exact Or.inl heq.symm
  · exact Or.inr (heq ▸ hb)

theorem mem_sub_nonword (t : List Char) :
    ∀ c ∈ sub_nonword_space t,
      c = ' ' ∨ (c ∈ t ∧ (pyIsWord c || pyIsSpace c) = true) := by
  intro c hc
  obtain ⟨b, hb, heq⟩ := List.mem_map.mp hc
  split at heq
  · next h =>
    subst heq
    exact Or.inr ⟨hb, h⟩
  · exact Or.inl heq.symm

theorem mem_sub_moji (t : List Char) :
    ∀ c ∈ sub_mojibake_rs t,
      c = 'r' ∨ c = 's' ∨
      (c ∈ t ∧ ¬(c.toNat = 226 ∨ c.toNat = 8218 ∨ c.toNat = 185)) := by
  induction t with
  | nil => intro c hc; simp [sub_mojibake_rs] at hc
  | cons x rest ih =>
    intro c hc
    simp only [sub_mojibake_rs] at hc
    split at hc
    · next hcond =>
      rcases List.mem_cons.mp hc with rfl | hc2
      · exact Or.inl rfl
      rcases List.mem_cons.mp hc2 with rfl | hc3
      · exact Or.inr (Or.inl rfl)
      · rcases ih c hc3 with h | h | ⟨hm, hno⟩
        · exact Or.inl h
        · exact Or.inr (Or.inl h)
        · exact Or.inr (Or.inr ⟨List.mem_cons_of_mem x hm, hno⟩)
    · next hcond =>
      rcases List.mem_cons.mp hc with rfl | hc2
      · exact Or.inr (Or.inr ⟨by simp, fun hor => hcond (by simpa using or_assoc.mpr hor)⟩)
      · rcases ih c hc2 with h | h | ⟨hm, hno⟩
        · exact Or.inl h
        · exact Or.inr (Or.inl h)
        · exact Or.inr (Or.inr ⟨List.mem_cons_of_mem x hm, hno⟩)

theorem mem_sub_dollar (t : List Char) :
    ∀ c ∈ sub_dollar_usd t,
      c = 'u' ∨ c = 's' ∨ c = 'd' ∨ (c ∈ t ∧ c.toNat ≠ 36) := by
  induction t with
  | nil => intro c hc; simp [sub_dollar_usd] at hc
  | cons x rest ih =>
    intro c hc
    simp only [sub_dollar_usd] at hc
    split at hc
    · next hcond =>
      rcases List.mem_cons.mp hc with rfl | hc2
      · exact Or.inl rfl
      rcases List.mem_cons.mp hc2 with rfl | hc3
      · exact Or.inr (Or.inl rfl)
      rcases List.mem_cons.mp hc3 with rfl | hc4
      · exact Or.inr (Or.inr (Or.inl rfl))
      · rcases ih c hc4 with h | h | h | ⟨hm, hno⟩
        · exact Or.inl h
        · exact Or.inr (Or.inl h)
        · exact Or.inr (Or.inr (Or.inl h))
        · exact Or.inr (Or.inr (Or.inr ⟨List.mem_cons_of_mem x hm, hno⟩))
    · next hcond =>
      rcases List.mem_cons.mp hc with rfl | hc2
      · exact Or.inr (Or.inr (Or.inr ⟨by simp,
          fun hor => hcond (by simpa using hor)⟩))
      · rcases ih c hc2 with h | h | h | ⟨hm, hno⟩
        · exact Or.inl h
        · exact Or.inr (Or.inl h)
        · exact Or.inr (Or.inr (Or.inl h))
        · exact Or.inr (Or.inr (Or.inr ⟨List.mem_cons_of_mem x hm, hno⟩))

theorem mem_rsenior (t : List Char) :
    ∀ c ∈ replace_senior t, c = 's' ∨ c = 'r' ∨ c ∈ t := by
  induction t using replace_senior.induct with
  | case1 rest ih =>
    intro c hc
    rw [replace_senior_cons_eq] at hc
    rcases List.mem_cons.mp hc with rfl | hc2
    · exact Or.inl rfl
    rcases List.mem_cons.mp hc2 with rfl | hc3
    · exact Or.inr (Or.inl rfl)
    · rcases ih c hc3 with h | h | h
      · exact Or.inl h
      · exact Or.inr (Or.inl h)
      · exact Or.inr (Or.inr (by simp [h]))
  | case2 c0 rest hne ih =>
    intro c hc
    rw [replace_senior_cons_ne c0 rest hne] at hc
    rcases List.mem_cons.mp hc with rfl | hc2
    · exact Or.inr (Or.inr (by simp))
    · rcases ih c hc2 with h | h | h
      · exact Or.inl h
      · exact Or.inr (Or.inl h)
      · exact Or.inr (Or.inr (List.mem_cons_of_mem c0 h))
  | case3 =>
    intro c hc
    rw [show replace_senior [] = [] from rfl] at hc
    simp at hc

theorem mem_rjunior (t : List Char) :
    ∀ c ∈ replace_junior t, c = 'j' ∨ c = 'r' ∨ c ∈ t := by
  induction t using replace_junior.induct with
  | case1 rest ih =>
    intro c hc
    rw [replace_junior_cons_eq] at hc
    rcases List.mem_cons.mp hc with rfl | hc2
    · exact Or.inl rfl
    rcases List.mem_cons.mp hc2 with rfl | hc3
    · exact Or.inr (Or.inl rfl)
    · rcases ih c hc3 with h | h | h
      · exact Or.inl h
      · exact Or.inr (Or.inl h)
      · exact Or.inr (Or.inr (by simp [h]))
  | case2 c0 rest hne ih =>
    intro c hc
    rw [replace_junior_cons_ne c0 rest hne] at hc
    rcases List.mem_cons.mp hc with rfl | hc2
    · exact Or.inr (Or.inr (by simp))
    · rcases ih c hc2 with h | h | h
      · exact Or.inl h
      · exact Or.inr (Or.inl h)
      · exact Or.inr (Or.inr (List.mem_cons_of_mem c0 h))
  | case3 =>
    intro c hc
    rw [show replace_junior [] = [] from rfl] at hc
    simp at hc

theorem normScalar_chars_stable (s : List Char) :
    ∀ c ∈ normScalar s, stableOut c = true := by
  intro c hc
  unfold normScalar at hc
  have h1 := (pyStrip_isInfix _).subset hc
  rcases mem_squeeze_ws _ c h1 with rfl | ⟨h2, hns⟩
  · decide
  rcases mem_rjunior _ c h2 with rfl | rfl | h3
  · decide
  · decide
  rcases mem_rsenior _ c h3 with rfl | rfl | h4
  · decide
  · decide
  rcases mem_sub_dollar _ c h4 with rfl | rfl | rfl | ⟨h5, h36⟩
  · decide
  · decide
  · decide
  rcases mem_sub_moji _ c h5 with rfl | rfl | ⟨h6, hmoj⟩
  · decide
  · decide
  rcases mem_sub_nonword _ c h6 with rfl | ⟨h7, hword⟩
  · exact absurd hns (by decide)
  rcases mem_sub_dash _ c h7 with rfl | h8
  · exact absurd hns (by decide)
  have h9 : c ∈ pyStrip (pyLower s) := (List.mem_filter.mp h8).1
  have h10 : c ∈ pyLower s := (pyStrip_isInfix _).subset h9
  have hup := mem_pyLower_not_upper s c h10
  simp only [pyIsWord, pyIsSpace, Bool.or_eq_true, Bool.and_eq_true,
    decide_eq_true_eq] at hword
  simp [pyIsSpace] at hns
  simp only [stableOut, Bool.or_eq_true, Bool.and_eq_true, decide_eq_true_eq]
  omega

theorem map_id_on (f : Char → Char) (l : List Char) (h : ∀ c ∈ l, f c = c) :
    l.map f = l := by
  induction l with
  | nil => rfl
  | cons x xs ih =>
    rw [List.map_cons, h x (by simp), ih (fun c hc => h c (by simp [hc]))]

theorem filter_id_on (p : Char → Bool) (l : List Char)
    (h : ∀ c ∈ l, p c = true) : l.filter p = l := by
  induction l with
  | nil => rfl
  | cons x xs ih =>
    rw [List.filter_cons_of_pos (h x (by simp)),
      ih (fun c hc => h c (by simp [hc]))]

theorem pyLower_id (t : List Char) (h : ∀ c ∈ t, stableOut c = true) :
    pyLower t = t := by
  refine map_id_on Char.toLower t (fun c hc => ?_)
  have hs := h c hc
  simp only [stableOut, Bool.or_eq_true, Bool.and_eq_true,
    decide_eq_true_eq] at hs
  rw [Char.toLower]
  split
  · next h65 => omega
  · rfl

theorem sub_comma_id (t : List Char) (h : ∀ c ∈ t, stableOut c = true) :
    sub_comma t = t := by
  refine filter_id_on _ t (fun c hc => ?_)
  have hs := h c hc
  simp only [stableOut, Bool.or_eq_true, Bool.and_eq_true,
    decide_eq_true_eq] at hs
  simp only [Bool.not_eq_true', decide_eq_false_iff_not]
  omega

theorem sub_dash_id (t : List Char) (h : ∀ c ∈ t, stableOut c = true) :
    sub_dash_space t = t := by
  refine map_id_on _ t (fun c hc => ?_)
  have hs := h c hc
  simp only [stableOut, Bool.or_eq_true, Bool.and_eq_true,
    decide_eq_true_eq] at hs
  rw [if_neg (by simp only [Bool.or_eq_true, decide_eq_true_eq]; omega)]

theorem sub_nonword_id (t : List Char) (h : ∀ c ∈ t, stableOut c = true) :
    sub_nonword_space t = t := by
  refine map_id_on _ t (fun c hc => ?_)
  have hs := h c hc
  simp only [stableOut, Bool.or_eq_true, Bool.and_eq_true,
    decide_eq_true_eq] at hs
  rw [if_pos (by
    simp only [pyIsWord, pyIsSpace, Bool.or_eq_true, Bool.and_eq_true,
      decide_eq_true_eq]
    omega)]

theorem sub_moji_id (t : List Char) (h : ∀ c ∈ t, stableOut c = true) :
    sub_mojibake_rs t = t := by
  induction t with
  | nil => rfl
  | cons x rest ih =>
    have hs := h x (by simp)
    simp only [stableOut, Bool.or_eq_true, Bool.and_eq_true,
      decide_eq_true_eq] at hs
    simp only [sub_mojibake_rs]
    rw [if_neg (by simp only [Bool.or_eq_true, decide_eq_true_eq]; omega),
      ih (fun c hc => h c (by simp [hc]))]

theorem sub_dollar_id (t : List Char) (h : ∀ c ∈ t, stableOut c = true) :
    sub_dollar_usd t = t := by
  induction t with
  | nil => rfl
  | cons x rest ih =>
    have hs := h x (by simp)
    simp only [stableOut, Bool.or_eq_true, Bool.and_eq_true,
      decide_eq_true_eq] at hs
    simp only [sub_dollar_usd]
    rw [if_neg (by omega), ih (fun c hc => h c (by simp [hc]))]

theorem stable_space_is_blank (c : Char) (hs : stableOut c = true)
    (hsp : pyIsSpace c = true) : c = ' ' := by
  simp only [stableOut, Bool.or_eq_true, Bool.and_eq_true,
    decide_eq_true_eq] at hs
  simp only [pyIsSpace, Bool.or_eq_true, decide_eq_true_eq] at hsp
  have h32 : c.toNat = 32 := by omega
  have hofn : Char.ofNat c.toNat = c := Char.ofNat_toNat c
  rw [← hofn, h32]

theorem normScalar_noDouble (s : List Char) : noDoubleWS (normScalar s) :=
  pyStrip_noDouble _ (squeeze_noDoubleWS _)

theorem normScalar_head (s : List Char) :
    ∀ c, (normScalar s).head? = some c → pyIsSpace c = false :=
  pyStrip_head_not_space _

theorem normScalar_last (s : List Char) :
    ∀ c, (normScalar s).getLast? = some c → pyIsSpace c = false :=
  pyStrip_last_not_space _

theorem normScalar_no_senior (s : List Char) : ¬ seniorL <:+: normScalar s := by
  intro hin
  have h1 : seniorL <:+: squeeze_ws (replace_junior (replace_senior
      (sub_dollar_usd (sub_mojibake_rs (sub_nonword_space (sub_dash_space
        (sub_comma (pyStrip (pyLower s))))))))) :=
    hin.trans (pyStrip_isInfix _)
  have h2 := squeeze_infix_transfer _ seniorL (by decide) h1
  exact no_senior_in_rjunior _ (no_senior_in_rsenior _) h2

theorem normScalar_no_junior (s : List Char) : ¬ juniorL <:+: normScalar s := by
  intro hin
  have h1 : juniorL <:+: squeeze_ws (replace_junior (replace_senior
      (sub_dollar_usd (sub_mojibake_rs (sub_nonword_space (sub_dash_space
        (sub_comma (pyStrip (pyLower s))))))))) :=
    hin.trans (pyStrip_isInfix _)
  have h2 := squeeze_infix_transfer _ juniorL (by decide) h1
  exact no_junior_in_rjunior _ h2

/-- A string over the output alphabet, with no space doubling, no space at
either end and no `senior`/`junior` occurrence passes through the whole
pipeline unchanged. -/
theorem normScalar_id (t : List Char)
    (hst : ∀ c ∈ t, stableOut c = true) (hnd : noDoubleWS t)
    (hh : ∀ c, t.head? = some c → pyIsSpace c = false)
    (hl : ∀ c, t.getLast? = some c → pyIsSpace c = false)
    (hsen : ¬ seniorL <:+: t) (hjun : ¬ juniorL <:+: t) :
    normScalar t = t := by
  unfold normScalar
  rw [pyLower_id t hst, pyStrip_id t hh hl, sub_comma_id t hst,
    sub_dash_id t hst, sub_nonword_id t hst, sub_moji_id t hst,
    sub_dollar_id t hst, replace_senior_id t hsen, replace_junior_id t hjun,
    squeeze_ws_id t hnd (fun c hc hsp => stable_space_is_blank c (hst c hc) hsp),
    pyStrip_id t hh hl]

theorem normScalar_idem (s : List Char) :
    normScalar (normScalar s) = normScalar s :=
  normScalar_id (normScalar s) (normScalar_chars_stable s)
    (normScalar_noDouble s) (normScalar_head s) (normScalar_last s)
    (normScalar_no_senior s) (normScalar_no_junior s)

/-- Scalar JSON values: null, booleans, numbers and strings (not sequences,
not maps). -/
def isScalarValue : JValue → Prop
  | .arr _ => False
  | .obj _ => False
  | _ => True

/-- Claim C3: `normalize_value` is idempotent on scalar inputs — applying it
to its own (string) output returns that output unchanged; in particular the
`senior`/`junior` replacements and the punctuation and whitespace rules never
produce text that a second pass would change. -/
theorem C3_normalize_idempotent_on_scalars (v : JValue) (h : isScalarValue v) :
    normalize_value (.str (normalize_value v)) = normalize_value v := by
  cases v with
  | null => rfl
  | bool b =>
    cases b
    · show normScalar (normScalar ['F','a','l','s','e']) = _
      exact normScalar_idem _
    · show normScalar (normScalar ['T','r','u','e']) = _
      exact normScalar_idem _
  | num n =>
    show normScalar (normScalar (intToChars n)) = _
    exact normScalar_idem _
  | str s =>
    show normScalar (normScalar s) = _
    exact normScalar_idem s
  | arr xs => exact h.elim
  | obj fs => exact h.elim

theorem C3_normalize_idempotent_on_scalars_witness :
    isScalarValue (.str "  Senior, Developer!!  ".toList) ∧
    normalize_value (.str "  Senior, Developer!!  ".toList) =
      "sr developer".toList ∧
    normalize_value (.str (normalize_value
        (.str "  Senior, Developer!!  ".toList))) =
      normalize_value (.str "  Senior, Developer!!  ".toList) :=
  ⟨trivial, by decide,
   C3_normalize_idempotent_on_scalars (.str "  Senior, Developer!!  ".toList)
     trivial⟩
